import Mathlib

/-!
Verification of the `bit_collection` crate: a Collection is a struct wrapping
one unsigned backing word of width `w` bits (`w ∈ {8, 16, 32, 64}`), together
with a compile-time `mask` of valid bit positions.  The derive macro
(`derive/src/lib.rs`) generates all operations as bitwise arithmetic on the
backing word; the trait (`src/lib.rs`) supplies checked wrappers and the
iterator.  We embed the backing word as a `Nat` (invariant `n < 2 ^ w`) and an
Item as its 0-based bit position (the `transmute_copy`/`as`-cast round trip
between a bit position and an Item is the identity whenever the configured
mask/item correspondence is correct, which every claim assumes).
-/

namespace BitColl

/-- Population count: models the `count_ones` intrinsic used by `len`
(`derive/src/lib.rs` line 267). -/
def count_ones (n : Nat) : Nat :=
  if n = 0 then 0 else n % 2 + count_ones (n / 2)

/-- Count of trailing zero bits of a nonzero word; helper for the
`trailing_zeros` intrinsic. -/
def ctz (n : Nat) : Nat :=
  if n = 0 then 0 else if n % 2 = 1 then 0 else ctz (n / 2) + 1

/-- Number of binary digits of `n` (`0` for `n = 0`). -/
def bitLen (n : Nat) : Nat :=
  if n = 0 then 0 else bitLen (n / 2) + 1

/-- Models the `trailing_zeros` intrinsic of a `w`-bit word (`w` on input 0). -/
def trailing_zeros (w n : Nat) : Nat :=
  if n = 0 then w else ctz n

/-- Models the `leading_zeros` intrinsic of a `w`-bit word. -/
def leading_zeros (w n : Nat) : Nat :=
  w - bitLen n

/-- Models `n.wrapping_sub(1)` on a `w`-bit word (`n < 2 ^ w`). -/
def wrapping_sub_one (w n : Nat) : Nat :=
  (n + (2 ^ w - 1)) % 2 ^ w

/-- The backing widths the generator supports (`u8`/`u16`/`u32`/`u64`). -/
def ValidWidth (w : Nat) : Prop :=
  w = 8 ∨ w = 16 ∨ w = 32 ∨ w = 64

/-- Models `impl From<#backing> for #name` (`derive/src/lib.rs` lines 136-142):
the raw word is masked on the way in (`x & mask`). -/
def fromBits (mask v : Nat) : Nat :=
  v &&& mask

/-- Models `impl From<#item> for #name` (`derive/src/lib.rs` lines 119-127):
`ONE << convert_x`, a single bit at the item's position, on a `w`-bit word. -/
def fromItem (w pos : Nat) : Nat :=
  (1 <<< pos) % 2 ^ w

/-- Rust `!n` (bitwise complement) on a `w`-bit word. -/
def complement (w n : Nat) : Nat :=
  (2 ^ w - 1) ^^^ n

/-- Models `impl Not for #name` (`derive/src/lib.rs` lines 226-233):
`(!self.bits).into()`, i.e. complement re-run through the masked conversion. -/
def notOp (w mask n : Nat) : Nat :=
  fromBits mask (complement w n)

/-- Models `BitCollection::len` (`derive/src/lib.rs` lines 265-268). -/
def len (n : Nat) : Nat :=
  count_ones n

/-- Models `BitCollection::is_empty` (`derive/src/lib.rs` lines 270-273). -/
def is_empty (n : Nat) : Bool :=
  n == 0

/-- Models `BitCollection::has_multiple` (`derive/src/lib.rs` lines 275-278):
`bits & bits.wrapping_sub(1) != 0`. -/
def has_multiple (w n : Nat) : Bool :=
  n &&& wrapping_sub_one w n != 0

/-- Models `BitCollection::lsb_unchecked` (`derive/src/lib.rs` lines 280-284):
`bits.trailing_zeros()` reinterpreted as the Item at that position. -/
def lsb_unchecked (w n : Nat) : Nat :=
  trailing_zeros w n

/-- Models `BitCollection::msb_unchecked` (`derive/src/lib.rs` lines 286-292):
`(size_of::<Self>() * 8 - 1) ^ bits.leading_zeros()`. -/
def msb_unchecked (w n : Nat) : Nat :=
  (w - 1) ^^^ leading_zeros w n

/-- Models `BitCollection::lsb` (`src/lib.rs` lines 213-217). -/
def lsb (w n : Nat) : Option Nat :=
  if is_empty n then none else some (lsb_unchecked w n)

/-- Models `BitCollection::msb` (`src/lib.rs` lines 221-225). -/
def msb (w n : Nat) : Option Nat :=
  if is_empty n then none else some (msb_unchecked w n)

/-- Models `BitCollection::remove_lsb` (`derive/src/lib.rs` lines 294-297):
`bits &= bits.wrapping_sub(1)`. -/
def remove_lsb (w n : Nat) : Nat :=
  n &&& wrapping_sub_one w n

/-- Models `BitCollection::pop_lsb` (`derive/src/lib.rs` lines 304-310): the checked
item together with the updated word. -/
def pop_lsb (w n : Nat) : Option Nat × Nat :=
  match lsb w n with
  | none => (none, n)
  | some x => (some x, remove_lsb w n)

/-- Models `BitCollection::pop_msb` (`derive/src/lib.rs` lines 312-318):
`bits ^= Self::from(x).bits` where `x` is the checked msb. -/
def pop_msb (w n : Nat) : Option Nat × Nat :=
  match msb w n with
  | none => (none, n)
  | some x => (some x, n ^^^ fromItem w x)

/-- Models `BitCollection::remove_msb` (`derive/src/lib.rs` lines 299-302):
`self.pop_msb();` with the result discarded. -/
def remove_msb (w n : Nat) : Nat :=
  (pop_msb w n).2

/-- Models `BitCollection::contains` (`derive/src/lib.rs` lines 320-324):
`bits & other == other` where `other` is the argument's collection form. -/
def contains (n o : Nat) : Bool :=
  n &&& o == o

/-- Models `BitCollection::insert` of a single Item (`src/lib.rs` lines 288-293
together with `BitOrAssign`): `bits |= Self::from(x).bits`. -/
def insertItem (w n pos : Nat) : Nat :=
  n ||| fromItem w pos

/-- Models `BitCollection::remove` of a single Item (`src/lib.rs` lines 281-286
together with `SubAssign`, `derive/src/lib.rs` lines 219-224):
`bits &= !Self::from(x).bits`. -/
def removeItem (w n pos : Nat) : Nat :=
  n &&& complement w (fromItem w pos)

/-- Models `BitCollection::into_bit` (`src/lib.rs` lines 204-209): pop the lsb and
return it only if nothing is left. -/
def into_bit (w n : Nat) : Option Nat :=
  let p := pop_lsb w n
  if is_empty p.2 then p.1 else none

/-- Models `ExactSizeIterator for BitIter` (`src/lib.rs` lines 381-386):
`self.0.len()`. -/
def iter_len (n : Nat) : Nat :=
  len n

/-- Models `Iterator::size_hint for BitIter` (`src/lib.rs` lines 357-361):
`(len, Some(len))`. -/
def size_hint (n : Nat) : Nat × Option Nat :=
  (iter_len n, some (iter_len n))

/-- Forward drain of `BitIter` (`src/lib.rs` lines 349-372): `next` is
`pop_lsb`, repeated until empty.  The word itself is fuel: every step on a
valid (width-bounded) word strictly decreases it. -/
def drainLsbAux (w : Nat) : Nat → Nat → List Nat
  | 0, _ => []
  | fuel + 1, n =>
    if n = 0 then [] else lsb_unchecked w n :: drainLsbAux w fuel (remove_lsb w n)

/-- Full forward drain of a collection with backing word `n`. -/
def drainLsb (w n : Nat) : List Nat :=
  drainLsbAux w n n

/-- Backward drain of `BitIter` (`src/lib.rs` lines 374-379): `next_back` is
`pop_msb`, repeated until empty, fuelled like `drainLsbAux`. -/
def drainMsbAux (w : Nat) : Nat → Nat → List Nat
  | 0, _ => []
  | fuel + 1, n =>
    if n = 0 then []
    else msb_unchecked w n :: drainMsbAux w fuel (n ^^^ fromItem w (msb_unchecked w n))

/-- Full backward drain of a collection with backing word `n`. -/
def drainMsb (w n : Nat) : List Nat :=
  drainMsbAux w n n

/-- Spec-side reference list for C2: the set bit positions of `n` in strictly
increasing order ("yields its Items in strictly increasing bit-position
order"). -/
def posList (w n : Nat) : List Nat :=
  (List.range w).filter n.testBit

/-! ### Arithmetic facts about the helpers -/

theorem count_ones_zero : count_ones 0 = 0 := by
  simp [count_ones]

theorem count_ones_two_mul (n : Nat) : count_ones (2 * n) = count_ones n := by
  by_cases h : n = 0
  · subst h; simp [count_ones]
  · rw [count_ones, if_neg (by omega : ¬2 * n = 0)]
    have h2 : 2 * n % 2 = 0 := Nat.mul_mod_right 2 n
    have h3 : 2 * n / 2 = n := by omega
    rw [h2, h3, Nat.zero_add]

theorem count_ones_two_mul_add_one (n : Nat) :
    count_ones (2 * n + 1) = count_ones n + 1 := by
  rw [count_ones, if_neg (by omega : ¬2 * n + 1 = 0)]
  have h2 : (2 * n + 1) % 2 = 1 := by omega
  have h3 : (2 * n + 1) / 2 = n := by omega
  rw [h2, h3]; omega

theorem count_ones_eq_zero_iff (n : Nat) : count_ones n = 0 ↔ n = 0 := by
  induction n using Nat.strong_induction_on with
  | _ n ih =>
    by_cases h : n = 0
    · simp [h, count_ones_zero]
    · rw [count_ones, if_neg h]
      simp only [h, iff_false]
      intro he
      have hc : count_ones (n / 2) = 0 := by omega
      have h2 := (ih (n / 2) (by omega)).mp hc
      omega

theorem ctz_decomp (n : Nat) (h : n ≠ 0) :
    n = 2 ^ (ctz n + 1) * (n / 2 ^ (ctz n + 1)) + 2 ^ ctz n := by
  induction n using Nat.strong_induction_on with
  | _ n ih =>
    rw [ctz, if_neg h]
    by_cases hp : n % 2 = 1
    · rw [if_pos hp]
      simp only [Nat.zero_add, pow_one, pow_zero]
      omega
    · rw [if_neg hp]
      have hn2 : n / 2 ≠ 0 := by omega
      have ihh := ih (n / 2) (by omega) hn2
      set c := ctz (n / 2) with hc
      set q := n / 2 / 2 ^ (c + 1) with hq
      have e3 : n / 2 ^ (c + 1 + 1) = q := by
        rw [hq, Nat.div_div_eq_div_mul]
        congr 1
        ring
      rw [e3]
      have hn2' : n = 2 * (n / 2) := by omega
      rw [hn2', ihh]
      ring

theorem ctz_two_pow_le (n : Nat) (h : n ≠ 0) : 2 ^ ctz n ≤ n := by
  have := ctz_decomp n h
  omega

theorem ctz_lt_of_lt (n w : Nat) (h : n ≠ 0) (hw : n < 2 ^ w) : ctz n < w := by
  have h1 := ctz_two_pow_le n h
  by_contra hcon
  have : 2 ^ w ≤ 2 ^ ctz n := Nat.pow_le_pow_right (by norm_num) (by omega)
  omega

theorem two_pow_lt_succ (c : Nat) : 2 ^ c < 2 ^ (c + 1) := by
  have := Nat.two_pow_pos c
  omega

theorem testBit_decomp_self (c q : Nat) :
    (2 ^ (c + 1) * q + 2 ^ c).testBit c = true := by
  rw [Nat.testBit_mul_pow_two_add _ (two_pow_lt_succ c), if_pos (by omega)]
  exact Nat.testBit_two_pow_self

theorem testBit_decomp_lt (c q i : Nat) (hi : i < c) :
    (2 ^ (c + 1) * q + 2 ^ c).testBit i = false := by
  rw [Nat.testBit_mul_pow_two_add _ (two_pow_lt_succ c), if_pos (by omega)]
  exact Nat.testBit_two_pow_of_ne (by omega)

theorem testBit_decomp0_le (c q i : Nat) (hi : i ≤ c) :
    (2 ^ (c + 1) * q).testBit i = false := by
  have h : (2 ^ (c + 1) * q + 0).testBit i = false := by
    rw [Nat.testBit_mul_pow_two_add _ (Nat.two_pow_pos (c + 1)), if_pos (by omega)]
    exact Nat.zero_testBit i
  simpa using h

theorem testBit_decomp0_gt (c q i : Nat) (hi : c < i) :
    (2 ^ (c + 1) * q + 2 ^ c).testBit i = (2 ^ (c + 1) * q).testBit i := by
  rcases Nat.lt_or_ge i (c + 1) with h | h
  · omega
  · rw [Nat.testBit_mul_pow_two_add _ (two_pow_lt_succ c), if_neg (by omega)]
    have h0 : (2 ^ (c + 1) * q + 0).testBit i = (2 ^ (c + 1) * q).testBit i := by
      simp
    rw [← h0, Nat.testBit_mul_pow_two_add _ (Nat.two_pow_pos (c + 1)),
      if_neg (by omega)]

theorem testBit_ctz_self (n : Nat) (h : n ≠ 0) : n.testBit (ctz n) = true := by
  have hd := ctz_decomp n h
  generalize hg : ctz n = c at hd ⊢
  rw [hd]
  exact testBit_decomp_self c _

theorem testBit_lt_ctz (n i : Nat) (h : n ≠ 0) (hi : i < ctz n) :
    n.testBit i = false := by
  have hd := ctz_decomp n h
  generalize hg : ctz n = c at hd hi ⊢
  rw [hd]
  exact testBit_decomp_lt c _ i hi

theorem wrapping_sub_one_eq (w n : Nat) (h0 : n ≠ 0) (hw : n < 2 ^ w) :
    wrapping_sub_one w n = n - 1 := by
  unfold wrapping_sub_one
  have h1 : 0 < 2 ^ w := Nat.two_pow_pos w
  have h2 : n + (2 ^ w - 1) = (n - 1) + 2 ^ w := by omega
  rw [h2, Nat.add_mod_right]
  exact Nat.mod_eq_of_lt (by omega)

theorem remove_lsb_eq (w n : Nat) (h0 : n ≠ 0) (hw : n < 2 ^ w) :
    remove_lsb w n = 2 ^ (ctz n + 1) * (n / 2 ^ (ctz n + 1)) := by
  unfold remove_lsb
  rw [wrapping_sub_one_eq w n h0 hw]
  have hd := ctz_decomp n h0
  generalize hg : ctz n = c at hd
  set q := n / 2 ^ (c + 1) with hq
  have hpc := Nat.two_pow_pos c
  have hor1 : n = 2 ^ (c + 1) * q ||| 2 ^ c := by
    conv_lhs => rw [hd]
    exact Nat.mul_add_lt_is_or (two_pow_lt_succ c) q
  have hor2 : n - 1 = 2 ^ (c + 1) * q ||| (2 ^ c - 1) := by
    have h3 : n - 1 = 2 ^ (c + 1) * q + (2 ^ c - 1) := by omega
    rw [h3]
    exact Nat.mul_add_lt_is_or (by have := two_pow_lt_succ c; omega) q
  rw [hor2, hor1, ← Nat.or_and_distrib_left]
  have hz : 2 ^ c &&& (2 ^ c - 1) = 0 := by
    rw [Nat.and_pow_two_sub_one_eq_mod, Nat.mod_self]
  rw [hz, Nat.or_zero]

theorem remove_lsb_lt (w n : Nat) (h0 : n ≠ 0) (hw : n < 2 ^ w) :
    remove_lsb w n < n := by
  rw [remove_lsb_eq w n h0 hw]
  have hd := ctz_decomp n h0
  have := Nat.two_pow_pos (ctz n)
  omega

theorem count_ones_mul_two_pow (c q : Nat) : count_ones (2 ^ c * q) = count_ones q := by
  induction c with
  | zero => simp
  | succ c ih =>
    have h : 2 ^ (c + 1) * q = 2 * (2 ^ c * q) := by ring
    rw [h, count_ones_two_mul, ih]

theorem count_ones_decomp (c q : Nat) :
    count_ones (2 ^ (c + 1) * q + 2 ^ c) = count_ones q + 1 := by
  induction c with
  | zero =>
    have h : 2 ^ 1 * q + 2 ^ 0 = 2 * q + 1 := by ring
    rw [h, count_ones_two_mul_add_one]
  | succ c ih =>
    have h : 2 ^ (c + 1 + 1) * q + 2 ^ (c + 1) = 2 * (2 ^ (c + 1) * q + 2 ^ c) := by
      ring
    rw [h, count_ones_two_mul, ih]

theorem bitLen_zero : bitLen 0 = 0 := by
  simp [bitLen]

theorem bitLen_pos (n : Nat) (h : n ≠ 0) : 0 < bitLen n := by
  rw [bitLen, if_neg h]
  omega

theorem bitLen_spec (n : Nat) (h : n ≠ 0) :
    2 ^ (bitLen n - 1) ≤ n ∧ n < 2 ^ bitLen n := by
  induction n using Nat.strong_induction_on with
  | _ n ih =>
    rw [bitLen, if_neg h]
    by_cases h2 : n / 2 = 0
    · rw [h2, bitLen_zero]
      norm_num
      omega
    · have ihh := ih (n / 2) (by omega) h2
      have hbp := bitLen_pos (n / 2) h2
      set b := bitLen (n / 2) with hb
      obtain ⟨l, u⟩ := ihh
      have e1 : (2 : Nat) ^ b = 2 * 2 ^ (b - 1) := by
        conv_lhs => rw [show b = b - 1 + 1 by omega]
        ring
      have e2 : (2 : Nat) ^ (b + 1) = 2 * 2 ^ b := by ring
      constructor
      · simp only [Nat.add_sub_cancel]
        omega
      · omega

theorem bitLen_le (w n : Nat) (hw : n < 2 ^ w) : bitLen n ≤ w := by
  by_cases h : n = 0
  · subst h; rw [bitLen_zero]; omega
  · obtain ⟨l, _⟩ := bitLen_spec n h
    have hbp := bitLen_pos n h
    by_contra hcon
    have : 2 ^ w ≤ 2 ^ (bitLen n - 1) := Nat.pow_le_pow_right (by norm_num) (by omega)
    omega

theorem msb_decomp (n : Nat) (h : n ≠ 0) :
    n = 2 ^ (bitLen n - 1) * 1 + (n - 2 ^ (bitLen n - 1)) ∧
      n - 2 ^ (bitLen n - 1) < 2 ^ (bitLen n - 1) := by
  obtain ⟨l, u⟩ := bitLen_spec n h
  have hbp := bitLen_pos n h
  have e1 : (2 : Nat) ^ bitLen n = 2 * 2 ^ (bitLen n - 1) := by
    conv_lhs => rw [show bitLen n = bitLen n - 1 + 1 by omega]
    ring
  omega

theorem testBit_msb_self (n : Nat) (h : n ≠ 0) :
    n.testBit (bitLen n - 1) = true := by
  obtain ⟨hd, hlt⟩ := msb_decomp n h
  generalize hg : bitLen n - 1 = m at hd hlt ⊢
  rw [hd]
  rw [Nat.testBit_mul_pow_two_add _ hlt, if_neg (by omega)]
  simp

theorem testBit_gt_msb (n i : Nat) (h : n ≠ 0) (hi : bitLen n - 1 < i) :
    n.testBit i = false := by
  apply Nat.testBit_lt_two_pow
  obtain ⟨_, u⟩ := bitLen_spec n h
  have : 2 ^ bitLen n ≤ 2 ^ i := Nat.pow_le_pow_right (by norm_num)
    (by have := bitLen_pos n h; omega)
  omega

theorem two_pow_sub_one_xor (k a : Nat) (ha : a < 2 ^ k) :
    (2 ^ k - 1) ^^^ a = 2 ^ k - 1 - a := by
  apply Nat.eq_of_testBit_eq
  intro i
  rw [Nat.testBit_xor, Nat.testBit_two_pow_sub_one]
  rw [show 2 ^ k - 1 - a = 2 ^ k - (a + 1) by omega, Nat.testBit_two_pow_sub_succ ha]
  by_cases hik : i < k
  · simp [hik]
  · have hai : a.testBit i = false := Nat.testBit_lt_two_pow
      (lt_of_lt_of_le ha (Nat.pow_le_pow_right (by norm_num) (by omega)))
    simp [hik, hai]

theorem msb_unchecked_eq (w k n : Nat) (hk : w = 2 ^ k) (h0 : n ≠ 0)
    (hw : n < 2 ^ w) : msb_unchecked w n = bitLen n - 1 := by
  unfold msb_unchecked leading_zeros
  have hble := bitLen_le w n hw
  have hbp := bitLen_pos n h0
  have hwpos : 0 < w := by rw [hk]; exact Nat.two_pow_pos k
  have hlt : w - bitLen n < 2 ^ k := by omega
  rw [show w - 1 = 2 ^ k - 1 by omega, two_pow_sub_one_xor k _ hlt]
  omega

theorem fromItem_eq (w pos : Nat) (h : pos < w) : fromItem w pos = 2 ^ pos := by
  unfold fromItem
  rw [Nat.shiftLeft_eq, Nat.one_mul]
  exact Nat.mod_eq_of_lt ((Nat.pow_lt_pow_iff_right (by norm_num)).mpr h)

theorem lor_eq_xor (a b : Nat) (h : a &&& b = 0) : a ||| b = a ^^^ b := by
  apply Nat.eq_of_testBit_eq
  intro i
  have hb : (a.testBit i && b.testBit i) = false := by
    rw [← Nat.testBit_and, h]
    exact Nat.zero_testBit i
  rw [Nat.testBit_or, Nat.testBit_xor]
  cases ha : a.testBit i <;> cases hbb : b.testBit i <;> simp_all

theorem xor_msb_eq (n : Nat) (h0 : n ≠ 0) :
    n ^^^ 2 ^ (bitLen n - 1) = n - 2 ^ (bitLen n - 1) := by
  obtain ⟨hd, hlt⟩ := msb_decomp n h0
  generalize hg : bitLen n - 1 = m at hd hlt ⊢
  set r := n - 2 ^ m with hr
  have hand : 2 ^ m &&& r = 0 := by
    rw [Nat.and_comm, Nat.and_two_pow, Nat.testBit_lt_two_pow hlt]
    simp
  have hor : n = 2 ^ m ||| r := by
    conv_lhs => rw [hd]
    rw [Nat.mul_add_lt_is_or hlt 1, Nat.mul_one]
  calc n ^^^ 2 ^ m = (2 ^ m ||| r) ^^^ 2 ^ m := by conv_lhs => rw [hor]
    _ = (2 ^ m ^^^ r) ^^^ 2 ^ m := by rw [lor_eq_xor _ _ hand]
    _ = r := by
        rw [Nat.xor_comm (2 ^ m) r, Nat.xor_assoc, Nat.xor_self, Nat.xor_zero]

theorem count_ones_msb (n : Nat) (h0 : n ≠ 0) :
    count_ones n = count_ones (n - 2 ^ (bitLen n - 1)) + 1 := by
  obtain ⟨hd, hlt⟩ := msb_decomp n h0
  generalize hg : bitLen n - 1 = m at hd hlt ⊢
  generalize hr : n - 2 ^ m = r at hd hlt ⊢
  conv_lhs => rw [hd]
  clear hd hr hg h0
  induction m generalizing r with
  | zero =>
    have : r = 0 := by omega
    subst this
    simp [count_ones]
  | succ m ih =>
    have h2 : 2 ^ (m + 1) * 1 + r = 2 * (2 ^ m * 1 + r / 2) + r % 2 := by omega
    rcases Nat.even_or_odd r with he | ho
    · have hr2 : r % 2 = 0 := Nat.even_iff.mp he
      rw [h2, hr2, Nat.add_zero, count_ones_two_mul]
      rw [ih (r / 2) (by omega)]
      congr 1
      conv_rhs => rw [show r = 2 * (r / 2) by omega, count_ones_two_mul]
    · have hr2 : r % 2 = 1 := Nat.odd_iff.mp ho
      rw [h2, hr2, count_ones_two_mul_add_one]
      rw [ih (r / 2) (by omega)]
      have : count_ones r = count_ones (r / 2) + 1 := by
        conv_lhs => rw [show r = 2 * (r / 2) + 1 by omega]
        rw [count_ones_two_mul_add_one]
      omega

/-! ### Filtered-range lemmas for the drain characterisation -/

theorem filter_range_cons (p p' : Nat → Bool) (c : Nat)
    (h : ∀ i, p i = (p' i || decide (i = c)))
    (hdown : ∀ i, i ≤ c → p' i = false) :
    ∀ w, c < w → (List.range w).filter p = c :: (List.range w).filter p' := by
  intro w
  induction w with
  | zero => omega
  | succ w ih =>
    intro hcw
    rw [List.range_succ, List.filter_append, List.filter_append]
    by_cases hc : c = w
    · subst hc
      have h1 : (List.range c).filter p = [] := by
        rw [List.filter_eq_nil_iff]
        intro a ha
        rw [List.mem_range] at ha
        rw [h a, hdown a (by omega)]
        simp
        omega
      have h2 : (List.range c).filter p' = [] := by
        rw [List.filter_eq_nil_iff]
        intro a ha
        rw [List.mem_range] at ha
        exact ne_true_of_eq_false (hdown a (by omega))
      have h3 : p c = true := by rw [h c, hdown c le_rfl]; simp
      have h4 : p' c = false := hdown c le_rfl
      simp [h1, h2, h3, h4, List.filter_cons]
    · have hcw' : c < w := by omega
      have h5 : p w = p' w := by rw [h w]; simp; omega
      rw [ih hcw']
      cases hpw : p' w <;> simp [List.filter_cons, h5, hpw]

theorem filter_range_snoc (p p' : Nat → Bool) (m : Nat)
    (h : ∀ i, p i = (p' i || decide (i = m)))
    (hup : ∀ i, m ≤ i → p' i = false) :
    ∀ w, m < w →
      (List.range w).filter p = (List.range w).filter p' ++ [m] := by
  intro w
  induction w with
  | zero => omega
  | succ w ih =>
    intro hmw
    rw [List.range_succ, List.filter_append, List.filter_append]
    by_cases hm : m = w
    · subst hm
      have h1 : (List.range m).filter p = (List.range m).filter p' := by
        apply List.filter_congr
        intro a ha
        rw [List.mem_range] at ha
        rw [h a]
        simp
        omega
      have h3 : p m = true := by rw [h m]; simp
      have h4 : p' m = false := hup m le_rfl
      simp [h1, h3, h4, List.filter_cons]
    · have hmw' : m < w := by omega
      have h5 : p w = p' w := by rw [h w]; simp; omega
      have h6 : p' w = false := hup w (by omega)
      rw [ih hmw']
      simp [List.filter_cons, h5, h6]

theorem posList_zero (w : Nat) : posList w 0 = [] := by
  simp [posList, Nat.zero_testBit]

theorem posList_pairwise (w n : Nat) : List.Pairwise (· < ·) (posList w n) :=
  List.Pairwise.sublist (List.filter_sublist _) (List.pairwise_lt_range w)

theorem lsb_unchecked_eq (w n : Nat) (h0 : n ≠ 0) : lsb_unchecked w n = ctz n := by
  unfold lsb_unchecked trailing_zeros
  rw [if_neg h0]

theorem testBit_split_lsb (w n : Nat) (h0 : n ≠ 0) (hw : n < 2 ^ w) :
    ∀ i, n.testBit i = ((remove_lsb w n).testBit i || decide (i = ctz n)) := by
  intro i
  have hd := ctz_decomp n h0
  have hrl := remove_lsb_eq w n h0 hw
  generalize hg : ctz n = c at hd hrl ⊢
  rw [hrl]
  rcases lt_trichotomy i c with h1 | h1 | h1
  · have hl : n.testBit i = false := by
      conv_lhs => rw [hd]
      exact testBit_decomp_lt c _ i h1
    rw [hl, testBit_decomp0_le c _ i (by omega)]
    simp
    omega
  · subst h1
    have hl : n.testBit i = true := by
      conv_lhs => rw [hd]
      exact testBit_decomp_self i _
    rw [hl]
    simp
  · have hl : n.testBit i = (2 ^ (c + 1) * (n / 2 ^ (c + 1))).testBit i := by
      conv_lhs => rw [hd]
      exact testBit_decomp0_gt c _ i h1
    rw [hl]
    simp
    omega

theorem posList_lsb (w n : Nat) (h0 : n ≠ 0) (hw : n < 2 ^ w) :
    posList w n = ctz n :: posList w (remove_lsb w n) := by
  unfold posList
  apply filter_range_cons _ _ (ctz n) (testBit_split_lsb w n h0 hw)
  · intro i hi
    rw [remove_lsb_eq w n h0 hw]
    exact testBit_decomp0_le _ _ i hi
  · exact ctz_lt_of_lt n w h0 hw

theorem testBit_one_ge (j : Nat) (hj : 1 ≤ j) : Nat.testBit 1 j = false :=
  Nat.testBit_lt_two_pow
    (lt_of_lt_of_le (by norm_num) (Nat.pow_le_pow_right (by norm_num) hj))

theorem testBit_split_msb (n : Nat) (h0 : n ≠ 0) :
    ∀ i, n.testBit i =
      ((n - 2 ^ (bitLen n - 1)).testBit i || decide (i = bitLen n - 1)) := by
  intro i
  obtain ⟨hd, hlt⟩ := msb_decomp n h0
  generalize hg : bitLen n - 1 = m at hd hlt ⊢
  generalize hr : n - 2 ^ m = r at hd hlt ⊢
  rcases lt_trichotomy i m with h1 | h1 | h1
  · have hl : n.testBit i = r.testBit i := by
      conv_lhs => rw [hd]
      rw [Nat.testBit_mul_pow_two_add _ hlt, if_pos h1]
    rw [hl]
    simp
    omega
  · subst h1
    have hl : n.testBit i = true := by
      conv_lhs => rw [hd]
      rw [Nat.testBit_mul_pow_two_add _ hlt, if_neg (by omega)]
      simp
    rw [hl]
    simp
  · have hl : n.testBit i = false := by
      conv_lhs => rw [hd]
      rw [Nat.testBit_mul_pow_two_add _ hlt, if_neg (by omega)]
      exact testBit_one_ge _ (by omega)
    have hri : r.testBit i = false := Nat.testBit_lt_two_pow
      (lt_of_lt_of_le hlt (Nat.pow_le_pow_right (by norm_num) (by omega)))
    rw [hl, hri]
    simp
    omega

theorem posList_msb (w n : Nat) (h0 : n ≠ 0) (hw : n < 2 ^ w) :
    posList w n = posList w (n - 2 ^ (bitLen n - 1)) ++ [bitLen n - 1] := by
  unfold posList
  apply filter_range_snoc _ _ (bitLen n - 1) (testBit_split_msb n h0)
  · intro i hi
    obtain ⟨_, hlt⟩ := msb_decomp n h0
    exact Nat.testBit_lt_two_pow
      (lt_of_lt_of_le hlt (Nat.pow_le_pow_right (by norm_num) hi))
  · have h1 := bitLen_le w n hw
    have h2 := bitLen_pos n h0
    have h3 : 0 < w := by
      by_contra hc
      have : w = 0 := by omega
      subst this
      simp at hw
      omega
    omega

/-! ### Drain characterisation -/

theorem drainLsbAux_eq (w : Nat) :
    ∀ fuel n, n ≤ fuel → n < 2 ^ w → drainLsbAux w fuel n = posList w n := by
  intro fuel
  induction fuel with
  | zero =>
    intro n hf _
    have : n = 0 := by omega
    subst this
    rw [posList_zero]
    rfl
  | succ fuel ih =>
    intro n hf hw
    by_cases h0 : n = 0
    · subst h0
      rw [posList_zero]
      simp [drainLsbAux]
    · rw [drainLsbAux, if_neg h0, lsb_unchecked_eq w n h0]
      have hlt := remove_lsb_lt w n h0 hw
      have hle : remove_lsb w n ≤ n := Nat.and_le_left
      rw [ih (remove_lsb w n) (by omega) (by omega)]
      exact (posList_lsb w n h0 hw).symm

theorem drainLsb_eq (w n : Nat) (hw : n < 2 ^ w) : drainLsb w n = posList w n :=
  drainLsbAux_eq w n n le_rfl hw

theorem drainMsbAux_eq (w k : Nat) (hk : w = 2 ^ k) :
    ∀ fuel n, n ≤ fuel → n < 2 ^ w →
      drainMsbAux w fuel n = (posList w n).reverse := by
  intro fuel
  induction fuel with
  | zero =>
    intro n hf _
    have : n = 0 := by omega
    subst this
    rw [posList_zero]
    rfl
  | succ fuel ih =>
    intro n hf hw
    by_cases h0 : n = 0
    · subst h0
      rw [posList_zero]
      simp [drainMsbAux]
    · rw [drainMsbAux, if_neg h0, msb_unchecked_eq w k n hk h0 hw]
      have hmlt : bitLen n - 1 < w := by
        have h1 := bitLen_le w n hw
        have h2 := bitLen_pos n h0
        have h3 : 0 < w := by rw [hk]; exact Nat.two_pow_pos k
        omega
      rw [fromItem_eq w _ hmlt, xor_msb_eq n h0]
      have hpow := bitLen_spec n h0
      have hple : 2 ^ (bitLen n - 1) ≤ n := hpow.1
      have hppos := Nat.two_pow_pos (bitLen n - 1)
      rw [ih (n - 2 ^ (bitLen n - 1)) (by omega) (by omega)]
      rw [posList_msb w n h0 hw]
      simp

theorem drainMsb_eq (w k n : Nat) (hk : w = 2 ^ k) (hw : n < 2 ^ w) :
    drainMsb w n = (posList w n).reverse :=
  drainMsbAux_eq w k hk n n le_rfl hw

theorem count_ones_eq_length (w : Nat) :
    ∀ n, n < 2 ^ w → count_ones n = (posList w n).length := by
  intro n
  induction n using Nat.strong_induction_on with
  | _ n ih =>
    intro hw
    by_cases h0 : n = 0
    · subst h0
      rw [posList_zero, count_ones_zero]
      rfl
    · rw [posList_lsb w n h0 hw]
      have hlt := remove_lsb_lt w n h0 hw
      have hle : remove_lsb w n ≤ n := Nat.and_le_left
      rw [List.length_cons, ← ih (remove_lsb w n) hlt (by omega)]
      have hd := ctz_decomp n h0
      have hrl := remove_lsb_eq w n h0 hw
      generalize hg : ctz n = c at hd hrl
      rw [hrl, count_ones_mul_two_pow]
      conv_lhs => rw [hd]
      rw [count_ones_decomp]

/-! ### Bridges between checked and unchecked operations -/

theorem is_empty_iff (n : Nat) : is_empty n = true ↔ n = 0 := by
  simp [is_empty]

theorem lsb_of_ne (w n : Nat) (h0 : n ≠ 0) : lsb w n = some (lsb_unchecked w n) := by
  unfold lsb
  rw [if_neg (by simp [is_empty, h0])]

theorem msb_of_ne (w n : Nat) (h0 : n ≠ 0) : msb w n = some (msb_unchecked w n) := by
  unfold msb
  rw [if_neg (by simp [is_empty, h0])]

theorem pop_lsb_zero (w : Nat) : pop_lsb w 0 = (none, 0) := by
  unfold pop_lsb lsb
  simp [is_empty]

theorem pop_msb_zero (w : Nat) : pop_msb w 0 = (none, 0) := by
  unfold pop_msb msb
  simp [is_empty]

theorem pop_lsb_of_ne (w n : Nat) (h0 : n ≠ 0) :
    pop_lsb w n = (some (lsb_unchecked w n), remove_lsb w n) := by
  unfold pop_lsb
  rw [lsb_of_ne w n h0]

theorem pop_msb_of_ne (w n : Nat) (h0 : n ≠ 0) :
    pop_msb w n = (some (msb_unchecked w n), n ^^^ fromItem w (msb_unchecked w n)) := by
  unfold pop_msb
  rw [msb_of_ne w n h0]

theorem validWidth_pow (w : Nat) (h : ValidWidth w) : ∃ k, w = 2 ^ k := by
  rcases h with h | h | h | h
  · exact ⟨3, by omega⟩
  · exact ⟨4, by omega⟩
  · exact ⟨5, by omega⟩
  · exact ⟨6, by omega⟩

theorem ctz_two_pow (x : Nat) : ctz (2 ^ x) = x := by
  induction x with
  | zero => rw [ctz]; norm_num
  | succ x ih =>
    rw [ctz, if_neg (by have := Nat.two_pow_pos (x + 1); omega)]
    have he : 2 ^ (x + 1) % 2 = 0 := by
      rw [pow_succ, Nat.mul_mod_left]
    rw [if_neg (by omega), show 2 ^ (x + 1) / 2 = 2 ^ x by rw [pow_succ]; omega, ih]

theorem count_ones_one : count_ones 1 = 1 := by
  simp [count_ones]

theorem count_ones_two_pow (x : Nat) : count_ones (2 ^ x) = 1 := by
  have := count_ones_mul_two_pow x 1
  rw [Nat.mul_one] at this
  rw [this, count_ones_one]

theorem remove_lsb_zero_iff (w n : Nat) (h0 : n ≠ 0) (hw : n < 2 ^ w) :
    remove_lsb w n = 0 ↔ n = 2 ^ ctz n := by
  rw [remove_lsb_eq w n h0 hw]
  have hd := ctz_decomp n h0
  have hp := Nat.two_pow_pos (ctz n + 1)
  constructor
  · intro h
    have hq : n / 2 ^ (ctz n + 1) = 0 := by
      rcases Nat.mul_eq_zero.mp h with h' | h'
      · omega
      · exact h'
    omega
  · intro h
    have hlt2 : n < 2 ^ (ctz n + 1) := by
      have := two_pow_lt_succ (ctz n)
      omega
    rw [Nat.div_eq_of_lt hlt2, Nat.mul_zero]

theorem count_ones_eq_one_iff (w n : Nat) (hw : n < 2 ^ w) :
    count_ones n = 1 ↔ ∃ x, n = 2 ^ x := by
  constructor
  · intro h
    have h0 : n ≠ 0 := by
      intro hc
      subst hc
      rw [count_ones_zero] at h
      omega
    refine ⟨ctz n, ?_⟩
    rw [← remove_lsb_zero_iff w n h0 hw, remove_lsb_eq w n h0 hw]
    have hd := ctz_decomp n h0
    have hcount : count_ones n = count_ones (n / 2 ^ (ctz n + 1)) + 1 := by
      conv_lhs => rw [hd]
      rw [count_ones_decomp]
    have hq0 : n / 2 ^ (ctz n + 1) = 0 :=
      (count_ones_eq_zero_iff _).mp (by omega)
    rw [hq0, Nat.mul_zero]
  · rintro ⟨x, rfl⟩
    exact count_ones_two_pow x

theorem remove_lsb_testBit (w n : Nat) (h0 : n ≠ 0) (hw : n < 2 ^ w) :
    ∀ i, (remove_lsb w n).testBit i = (n.testBit i && !decide (i = ctz n)) := by
  intro i
  have hsplit := testBit_split_lsb w n h0 hw i
  have hc : (remove_lsb w n).testBit (ctz n) = false := by
    rw [remove_lsb_eq w n h0 hw]
    exact testBit_decomp0_le _ _ _ le_rfl
  by_cases hic : i = ctz n
  · subst hic
    rw [hc]
    simp
  · rw [hsplit]
    simp [hic]

theorem pop_msb_snd (w k n : Nat) (hk : w = 2 ^ k) (h0 : n ≠ 0) (hw : n < 2 ^ w) :
    (pop_msb w n).2 = n - 2 ^ (bitLen n - 1) := by
  rw [pop_msb_of_ne w n h0]
  have hmlt : bitLen n - 1 < w := by
    have h1 := bitLen_le w n hw
    have h2 := bitLen_pos n h0
    have h3 : 0 < w := by rw [hk]; exact Nat.two_pow_pos k
    omega
  rw [msb_unchecked_eq w k n hk h0 hw, fromItem_eq w _ hmlt, xor_msb_eq n h0]

theorem msb_state_testBit (n : Nat) (h0 : n ≠ 0) :
    ∀ i, (n - 2 ^ (bitLen n - 1)).testBit i =
      (n.testBit i && !decide (i = bitLen n - 1)) := by
  intro i
  have hsplit := testBit_split_msb n h0 i
  have hm : (n - 2 ^ (bitLen n - 1)).testBit (bitLen n - 1) = false := by
    obtain ⟨_, hlt⟩ := msb_decomp n h0
    exact Nat.testBit_lt_two_pow hlt
  by_cases him : i = bitLen n - 1
  · subst him
    rw [hm]
    simp
  · rw [hsplit]
    simp [him]

/-! ### Claim theorems -/

/-- C1: Masking invariant.  Converting a raw backing word `v` yields exactly
`v &&& mask`; on a collection whose word is inside the mask, `Not` yields the
complement re-passed through the masked conversion, i.e. `!bits &&& mask`; and
both paths produce words with no set bit outside the mask. -/
theorem c1_masking_invariant (w mask v n : Nat) (hn : n &&& mask = n) :
    (fromBits mask v = v &&& mask ∧ fromBits mask v &&& mask = fromBits mask v) ∧
    (notOp w mask n = complement w n &&& mask ∧
      notOp w mask n &&& mask = notOp w mask n) := by
  have habs : ∀ x : Nat, x &&& mask &&& mask = x &&& mask := by
    intro x
    rw [Nat.and_assoc, Nat.and_self]
  exact ⟨⟨rfl, habs v⟩, ⟨rfl, habs _⟩⟩

/-- C1 witness at `w = 8`, `mask = 15`, `v = 255`, `n = 5`. -/
theorem c1_masking_invariant_witness :
    (5 : Nat) &&& 15 = 5 ∧
    ((fromBits 15 255 = 255 &&& 15 ∧ fromBits 15 255 &&& 15 = fromBits 15 255) ∧
      (notOp 8 15 5 = complement 8 5 &&& 15 ∧
        notOp 8 15 5 &&& 15 = notOp 8 15 5)) :=
  ⟨by decide, c1_masking_invariant 8 15 255 5 (by decide)⟩

/-- C2: Iteration order.  Forward draining by repeated `pop_lsb` yields the
set bit positions in strictly increasing order (exactly `posList`), backward
draining by repeated `pop_msb` yields them in strictly decreasing order, and
the two sequences are exact reverses of each other. -/
theorem c2_iteration_order (w n : Nat) (hvw : ValidWidth w) (hw : n < 2 ^ w) :
    drainLsb w n = posList w n ∧
    drainMsb w n = (drainLsb w n).reverse ∧
    List.Pairwise (· < ·) (drainLsb w n) ∧
    List.Pairwise (· > ·) (drainMsb w n) := by
  obtain ⟨k, hk⟩ := validWidth_pow w hvw
  have h1 := drainLsb_eq w n hw
  have h2 := drainMsb_eq w k n hk hw
  refine ⟨h1, ?_, ?_, ?_⟩
  · rw [h1, h2]
  · rw [h1]
    exact posList_pairwise w n
  · rw [h2, List.pairwise_reverse]
    exact posList_pairwise w n

/-- C2 witness at `w = 8`, `n = 5`. -/
theorem c2_iteration_order_witness :
    drainLsb 8 5 = posList 8 5 ∧
    drainMsb 8 5 = (drainLsb 8 5).reverse ∧
    List.Pairwise (· < ·) (drainLsb 8 5) ∧
    List.Pairwise (· > ·) (drainMsb 8 5) :=
  c2_iteration_order 8 5 (Or.inl rfl) (by decide)

/-- C3: Checked pop semantics.  `pop_lsb`/`pop_msb` return `none` iff the
collection is empty; otherwise they return the Item at the least/most
significant set bit and clear exactly that bit, leaving all others
unchanged. -/
theorem c3_checked_pop (w n : Nat) (hvw : ValidWidth w) (hw : n < 2 ^ w) :
    ((pop_lsb w n).1 = none ↔ n = 0) ∧
    ((pop_msb w n).1 = none ↔ n = 0) ∧
    (n ≠ 0 →
      (pop_lsb w n).1 = some (ctz n) ∧
      n.testBit (ctz n) = true ∧
      (∀ i, i < ctz n → n.testBit i = false) ∧
      (∀ i, (pop_lsb w n).2.testBit i = (n.testBit i && !decide (i = ctz n))) ∧
      (pop_msb w n).1 = some (bitLen n - 1) ∧
      n.testBit (bitLen n - 1) = true ∧
      (∀ i, bitLen n - 1 < i → n.testBit i = false) ∧
      (∀ i, (pop_msb w n).2.testBit i =
        (n.testBit i && !decide (i = bitLen n - 1)))) := by
  obtain ⟨k, hk⟩ := validWidth_pow w hvw
  refine ⟨?_, ?_, ?_⟩
  · by_cases h0 : n = 0
    · subst h0
      rw [pop_lsb_zero]
      simp
    · rw [pop_lsb_of_ne w n h0]
      simp [h0]
  · by_cases h0 : n = 0
    · subst h0
      rw [pop_msb_zero]
      simp
    · rw [pop_msb_of_ne w n h0]
      simp [h0]
  · intro h0
    refine ⟨?_, testBit_ctz_self n h0, fun i hi => testBit_lt_ctz n i h0 hi, ?_, ?_,
      testBit_msb_self n h0, fun i hi => testBit_gt_msb n i h0 hi, ?_⟩
    · rw [pop_lsb_of_ne w n h0, lsb_unchecked_eq w n h0]
    · rw [pop_lsb_of_ne w n h0]
      exact remove_lsb_testBit w n h0 hw
    · rw [pop_msb_of_ne w n h0, msb_unchecked_eq w k n hk h0 hw]
    · rw [pop_msb_snd w k n hk h0 hw]
      exact msb_state_testBit n h0

/-- C3 witness at `w = 8`, `n = 5`. -/
theorem c3_checked_pop_witness :
    ((pop_lsb 8 5).1 = none ↔ (5 : Nat) = 0) ∧
    ((pop_msb 8 5).1 = none ↔ (5 : Nat) = 0) ∧
    ((5 : Nat) ≠ 0 →
      (pop_lsb 8 5).1 = some (ctz 5) ∧
      Nat.testBit 5 (ctz 5) = true ∧
      (∀ i, i < ctz 5 → Nat.testBit 5 i = false) ∧
      (∀ i, (pop_lsb 8 5).2.testBit i = (Nat.testBit 5 i && !decide (i = ctz 5))) ∧
      (pop_msb 8 5).1 = some (bitLen 5 - 1) ∧
      Nat.testBit 5 (bitLen 5 - 1) = true ∧
      (∀ i, bitLen 5 - 1 < i → Nat.testBit 5 i = false) ∧
      (∀ i, (pop_msb 8 5).2.testBit i =
        (Nat.testBit 5 i && !decide (i = bitLen 5 - 1)))) :=
  c3_checked_pop 8 5 (Or.inl rfl) (by decide)

/-- C4: Checked accessors.  `lsb`/`msb` are `none` exactly on the empty
collection and otherwise wrap the unchecked extraction in `some`; they do not
modify the collection (they are pure functions of the word). -/
theorem c4_checked_accessors (w n : Nat) :
    (lsb w n = none ↔ is_empty n = true) ∧
    (msb w n = none ↔ is_empty n = true) ∧
    (is_empty n = false →
      lsb w n = some (lsb_unchecked w n) ∧ msb w n = some (msb_unchecked w n)) := by
  unfold lsb msb
  cases he : is_empty n <;> simp

/-- C4 witness at `w = 8`, `n = 5` (and the empty case `n = 0`). -/
theorem c4_checked_accessors_witness :
    ((lsb 8 5 = none ↔ is_empty 5 = true) ∧
      (msb 8 5 = none ↔ is_empty 5 = true) ∧
      (is_empty 5 = false →
        lsb 8 5 = some (lsb_unchecked 8 5) ∧ msb 8 5 = some (msb_unchecked 8 5))) ∧
    (lsb 8 0 = none ↔ is_empty 0 = true) :=
  ⟨c4_checked_accessors 8 5, (c4_checked_accessors 8 0).1⟩

/-- C5: `len` is the population count of the backing word and equals the
number of Items yielded by a full forward drain; the iterator reports exactly
this number through its exact-size `len` and `size_hint`. -/
theorem c5_len_drain (w n : Nat) (hw : n < 2 ^ w) :
    len n = count_ones n ∧
    len n = (drainLsb w n).length ∧
    iter_len n = (drainLsb w n).length ∧
    size_hint n = ((drainLsb w n).length, some ((drainLsb w n).length)) := by
  have h1 : len n = (drainLsb w n).length := by
    rw [drainLsb_eq w n hw]
    unfold len posList
    exact count_ones_eq_length w n hw
  refine ⟨rfl, h1, h1, ?_⟩
  simp only [size_hint, iter_len]
  rw [h1]

/-- C5 witness at `w = 8`, `n = 5`. -/
theorem c5_len_drain_witness :
    len 5 = count_ones 5 ∧
    len 5 = (drainLsb 8 5).length ∧
    iter_len 5 = (drainLsb 8 5).length ∧
    size_hint 5 = ((drainLsb 8 5).length, some ((drainLsb 8 5).length)) :=
  c5_len_drain 8 5 (by decide)

/-- C6: Subset test.  `contains` is true iff every bit set in the argument's
collection form is also set in the receiver; in particular it is true for a
single valid Item exactly when that Item's bit is set. -/
theorem c6_contains_subset (w n o p : Nat) (hp : p < w) :
    (contains n o = true ↔ ∀ i, o.testBit i = true → n.testBit i = true) ∧
    (contains n (fromItem w p) = true ↔ n.testBit p = true) := by
  have hmain : ∀ o' : Nat, contains n o' = true ↔
      ∀ i, o'.testBit i = true → n.testBit i = true := by
    intro o'
    unfold contains
    rw [beq_iff_eq]
    constructor
    · intro h i hio
      have h2 := congrArg (fun m => Nat.testBit m i) h
      simp only [Nat.testBit_and] at h2
      rw [hio] at h2
      simpa using h2
    · intro h
      apply Nat.eq_of_testBit_eq
      intro i
      rw [Nat.testBit_and]
      cases ho : o'.testBit i
      · simp
      · simp [h i ho]
  refine ⟨hmain o, ?_⟩
  rw [hmain (fromItem w p), fromItem_eq w p hp]
  constructor
  · intro h
    exact h p Nat.testBit_two_pow_self
  · intro h i hi
    rw [Nat.testBit_two_pow] at hi
    have : p = i := by simpa using hi
    subst this
    exact h

/-- C6 witness at `w = 8`, `n = 5`, `o = 4`, `p = 2`. -/
theorem c6_contains_subset_witness :
    ((contains 5 4 = true ↔ ∀ i, Nat.testBit 4 i = true → Nat.testBit 5 i = true) ∧
      (contains 5 (fromItem 8 2) = true ↔ Nat.testBit 5 2 = true)) ∧
    contains 5 (fromItem 8 2) = true :=
  ⟨c6_contains_subset 8 5 4 2 (by decide),
    ((c6_contains_subset 8 5 4 2 (by decide)).2).mpr (by decide)⟩

/-- C7: `has_multiple` is computed as `word &&& word.wrapping_sub(1) != 0` and
is true iff more than one bit is set (`len > 1`); in particular it is false on
the empty collection and on every single-Item collection. -/
theorem c7_has_multiple (w n : Nat) (hw : n < 2 ^ w) :
    has_multiple w n = (n &&& wrapping_sub_one w n != 0) ∧
    (has_multiple w n = true ↔ 1 < len n) ∧
    has_multiple w 0 = false ∧
    (∀ x, x < w → has_multiple w (fromItem w x) = false) := by
  have hmain : ∀ m : Nat, m < 2 ^ w → (has_multiple w m = true ↔ 1 < len m) := by
    intro m hm
    show (remove_lsb w m != 0) = true ↔ 1 < len m
    rw [bne_iff_ne]
    unfold len
    by_cases h0 : m = 0
    · subst h0
      have hz : remove_lsb w 0 = 0 := Nat.zero_and _
      rw [hz, count_ones_zero]
      simp
    · have hc0 : count_ones m ≠ 0 := by
        rw [Ne, count_ones_eq_zero_iff]
        exact h0
      have hiff : remove_lsb w m = 0 ↔ count_ones m = 1 := by
        rw [remove_lsb_zero_iff w m h0 hm, count_ones_eq_one_iff w m hm]
        constructor
        · intro h
          exact ⟨ctz m, h⟩
        · rintro ⟨x, rfl⟩
          rw [ctz_two_pow]
      constructor
      · intro hne
        have h1 : count_ones m ≠ 1 := fun hc => hne (hiff.mpr hc)
        omega
      · intro hlt h0'
        have := hiff.mp h0'
        omega
  refine ⟨rfl, hmain n hw, ?_, ?_⟩
  · show (remove_lsb w 0 != 0) = false
    have hz : remove_lsb w 0 = 0 := Nat.zero_and _
    rw [hz]
    rfl
  · intro x hx
    have hlt : fromItem w x < 2 ^ w := by
      rw [fromItem_eq w x hx]
      exact (Nat.pow_lt_pow_iff_right (by norm_num)).mpr hx
    have h := hmain (fromItem w x) hlt
    have hlen : len (fromItem w x) = 1 := by
      unfold len
      rw [fromItem_eq w x hx]
      exact count_ones_two_pow x
    cases hb : has_multiple w (fromItem w x)
    · rfl
    · have := h.mp hb
      omega

/-- C7 witness at `w = 8`, `n = 5`, single-bit case `x = 3`. -/
theorem c7_has_multiple_witness :
    (has_multiple 8 5 = (5 &&& wrapping_sub_one 8 5 != 0) ∧
      (has_multiple 8 5 = true ↔ 1 < len 5) ∧
      has_multiple 8 0 = false ∧
      (∀ x, x < 8 → has_multiple 8 (fromItem 8 x) = false)) ∧
    has_multiple 8 (fromItem 8 3) = false :=
  ⟨c7_has_multiple 8 5 (by decide), (c7_has_multiple 8 5 (by decide)).2.2.2 3 (by decide)⟩

/-- C8: Insert/remove round trip.  After inserting Item `x` the collection
contains `x`; after further removing `x` it does not (even if `x` was set
before the insert). -/
theorem c8_insert_remove (w n x : Nat) (hx : x < w) :
    contains (insertItem w n x) (fromItem w x) = true ∧
    contains (removeItem w (insertItem w n x) x) (fromItem w x) = false := by
  have hf : fromItem w x = 2 ^ x := fromItem_eq w x hx
  have hp := Nat.two_pow_pos x
  unfold insertItem removeItem contains
  rw [hf]
  constructor
  · rw [beq_iff_eq, Nat.and_two_pow]
    have ht : (n ||| 2 ^ x).testBit x = true := by
      rw [Nat.testBit_or, Nat.testBit_two_pow_self]
      simp
    rw [ht]
    simp
  · rw [Nat.and_two_pow]
    have ht : ((n ||| 2 ^ x) &&& complement w (2 ^ x)).testBit x = false := by
      rw [Nat.testBit_and]
      have hc : (complement w (2 ^ x)).testBit x = false := by
        unfold complement
        rw [Nat.testBit_xor, Nat.testBit_two_pow_sub_one, Nat.testBit_two_pow_self]
        simp [hx]
      rw [hc]
      simp
    rw [ht]
    simp
    omega

/-- C8 witness at `w = 8`, `n = 5`, `x = 3` (and `x = 0`, a bit set before the
insert). -/
theorem c8_insert_remove_witness :
    (contains (insertItem 8 5 3) (fromItem 8 3) = true ∧
      contains (removeItem 8 (insertItem 8 5 3) 3) (fromItem 8 3) = false) ∧
    (contains (insertItem 8 5 0) (fromItem 8 0) = true ∧
      contains (removeItem 8 (insertItem 8 5 0) 0) (fromItem 8 0) = false) :=
  ⟨c8_insert_remove 8 5 3 (by decide), c8_insert_remove 8 5 0 (by decide)⟩

/-- C9: `remove_lsb` is `bits &&& bits.wrapping_sub(1)`, a total no-op on the
empty collection, and otherwise clears exactly the least significant set bit
in place; `remove_msb` has exactly the effect of `pop_msb` with its result
discarded. -/
theorem c9_remove_lsb_msb (w n : Nat) (hw : n < 2 ^ w) :
    remove_lsb w n = n &&& wrapping_sub_one w n ∧
    remove_lsb w 0 = 0 ∧
    remove_msb w n = (pop_msb w n).2 ∧
    (n ≠ 0 →
      ∀ i, (remove_lsb w n).testBit i = (n.testBit i && !decide (i = ctz n))) :=
  ⟨rfl, Nat.zero_and _, rfl, fun h0 => remove_lsb_testBit w n h0 hw⟩

/-- C9 witness at `w = 8`, `n = 5`. -/
theorem c9_remove_lsb_msb_witness :
    remove_lsb 8 5 = 5 &&& wrapping_sub_one 8 5 ∧
    remove_lsb 8 0 = 0 ∧
    remove_msb 8 5 = (pop_msb 8 5).2 ∧
    ((5 : Nat) ≠ 0 →
      ∀ i, (remove_lsb 8 5).testBit i = (Nat.testBit 5 i && !decide (i = ctz 5))) :=
  c9_remove_lsb_msb 8 5 (by decide)

/-- C10: `into_bit` returns `some x` iff the collection has exactly one set
bit, at position `x`; it returns `none` both on the empty collection and when
two or more bits are set. -/
theorem c10_into_bit (w n : Nat) (hw : n < 2 ^ w) :
    (∀ x, into_bit w n = some x ↔ n = 2 ^ x) ∧
    (into_bit w n = none ↔ count_ones n ≠ 1) := by
  by_cases h0 : n = 0
  · subst h0
    have hz : into_bit w 0 = none := by
      simp [into_bit, pop_lsb_zero, is_empty]
    rw [hz, count_ones_zero]
    constructor
    · intro x
      have := Nat.two_pow_pos x
      simp
      omega
    · simp
  · have hib : into_bit w n =
        if is_empty (remove_lsb w n) then some (lsb_unchecked w n) else none := by
      simp only [into_bit, pop_lsb_of_ne w n h0]
    by_cases hz : remove_lsb w n = 0
    · have h2 : n = 2 ^ ctz n := (remove_lsb_zero_iff w n h0 hw).mp hz
      have hsome : into_bit w n = some (ctz n) := by
        rw [hib, if_pos (by simp [is_empty, hz]), lsb_unchecked_eq w n h0]
      rw [hsome]
      constructor
      · intro x
        constructor
        · intro hx
          have : ctz n = x := by
            simpa using hx
          rw [← this]
          exact h2
        · intro hx
          have : ctz n = x := by
            rw [hx, ctz_two_pow]
          rw [this]
      · have hc1 : count_ones n = 1 := by
          rw [count_ones_eq_one_iff w n hw]
          exact ⟨ctz n, h2⟩
        simp [hc1]
    · have hnone : into_bit w n = none := by
        rw [hib, if_neg (by simp [is_empty, hz])]
      rw [hnone]
      constructor
      · intro x
        constructor
        · intro hx
          exact absurd hx (by simp)
        · intro hx
          exfalso
          apply hz
          rw [remove_lsb_zero_iff w n h0 hw, hx, ctz_two_pow]
      · constructor
        · intro _ hc1
          rw [count_ones_eq_one_iff w n hw] at hc1
          obtain ⟨x, hx⟩ := hc1
          apply hz
          rw [remove_lsb_zero_iff w n h0 hw, hx, ctz_two_pow]
        · intro _
          rfl

/-- C10 witness at `w = 8`: singleton `n = 4` and non-singleton `n = 5`. -/
theorem c10_into_bit_witness :
    into_bit 8 4 = some 2 ∧
    (into_bit 8 5 = none ↔ count_ones 5 ≠ 1) :=
  ⟨((c10_into_bit 8 4 (by decide)).1 2).mpr (by decide),
    (c10_into_bit 8 5 (by decide)).2⟩

end BitColl
